import Mathlib

/-!
Verification development for `wordsmith.py` (byebrid/homophonous).

The program finds homophonous phrases: it looks up every pronunciation of
every word of the input phrase in the Carnegie Mellon Pronouncing Dictionary
(CMPD), forms every whole-phrase phoneme sequence (one pronunciation chosen
per word, concatenated), enumerates every partition of each sequence into
contiguous blocks, and maps each block back to words through an inverted
dictionary.

Embedding conventions:
* a phoneme is a `String`; a pronunciation (`Pron`) is a `List String`;
* Python dicts are association lists preserving insertion order (Python 3.7+
  dict semantics: updating an existing key keeps its position, a new key is
  appended at the end);
* Python `KeyError` propagation is modelled with `Option`: `none` is a raised
  `KeyError`, and the `try/except KeyError: pass` in `get_phrases` maps `none`
  to the empty contribution;
* tokenisation and lower-casing of the raw phrase (`nltk.word_tokenize`,
  `str.lower`) are external collaborators per the spec; `wordsmith` is
  modelled on the already-tokenised, lower-cased word list.
-/

/-- A pronunciation: an ordered sequence of phoneme symbols. -/
abbrev Pron := List String

/-- The Pronunciation Table (`CMPD`): word → list of pronunciations,
as an insertion-ordered association list (a Python dict). -/
abbrev Table := List (String × List Pron)

/-- The Inverted Index (`CMPD_INVERTED`): pronunciation → list of words,
as an insertion-ordered association list (a Python dict). -/
abbrev InvIdx := List (Pron × List String)

/-- Python `d[k]`-as-total-read with default `[]`, i.e. `d.get(k, [])` on the
inverted dict: value of the first entry whose key equals `p`, else `[]`. -/
def assocGet (d : InvIdx) (p : Pron) : List String :=
  match d.find? (fun kv => kv.1 == p) with
  | some kv => kv.2
  | none => []

/-- Python `k in d` on the inverted dict. -/
def hasKey (d : InvIdx) (p : Pron) : Bool :=
  d.any (fun kv => kv.1 == p)

/-- Python `d[k] = v` on the inverted dict: replace the value at an existing
key in place, or append a fresh entry at the end. -/
def assocUpd (d : InvIdx) (p : Pron) (v : List String) : InvIdx :=
  if hasKey d p then d.map (fun kv => if kv.1 == p then (p, v) else kv)
  else d ++ [(p, v)]

/-- One step of the `invert_CMPD` inner loop:
`inverted[p] = inverted.get(p, []); inverted[p].append(w)`. -/
def insertPair (d : InvIdx) (w : String) (p : Pron) : InvIdx :=
  assocUpd d p (assocGet d p ++ [w])

/-- `invert_CMPD` of `wordsmith.py`: for every word and each of its
pronunciations (in table order), append the word to the bucket keyed by that
pronunciation. -/
def invert_CMPD (cmpd : Table) : InvIdx :=
  cmpd.foldl (fun inv e => e.2.foldl (fun inv p => insertPair inv e.1 p) inv) []

/-- Every (word, pronunciation) pair of the table, in the visiting order of
`invert_CMPD`'s nested loops. Specification device for the index build. -/
def tablePairs (cmpd : Table) : List (String × Pron) :=
  cmpd.flatMap (fun e => e.2.map (fun p => (e.1, p)))

/-- The index build as a single fold over (word, pronunciation) pairs. -/
def foldPairs (ps : List (String × Pron)) (d : InvIdx) : InvIdx :=
  ps.foldl (fun inv wp => insertPair inv wp.1 wp.2) d

/-- The words filed under pronunciation `P` by the build: the first components
of the table's (word, pronunciation) pairs whose pronunciation is `P`, in
visiting order — each pair visited exactly once. -/
def bucketSpec (cmpd : Table) (P : Pron) : List String :=
  ((tablePairs cmpd).filter (fun wp => wp.2 == P)).map Prod.fst

/-- Python `CMPD[word]` inside `get_word_pronunciations`: `none` models the
raised `KeyError` when the word has no entry. -/
def lookupTable (cmpd : Table) (w : String) : Option (List Pron) :=
  (cmpd.find? (fun e => e.1 == w)).map (fun e => e.2)

/-- Python `CMPD_INVERTED[tuple(word)]` inside `part_to_phrases`: `none`
models the raised `KeyError` when no word has this pronunciation. -/
def lookupInv (d : InvIdx) (p : Pron) : Option (List String) :=
  (d.find? (fun kv => kv.1 == p)).map (fun kv => kv.2)

/-- Python `list(map(f, l))` where `f` may raise (`Option`-valued): the first
`KeyError` aborts the whole traversal with no partial result. -/
def mapOption {α β : Type} (f : α → Option β) : List α → Option (List β)
  | [] => some []
  | a :: as =>
    match f a, mapOption f as with
    | some b, some bs => some (b :: bs)
    | _, _ => none

/-- `get_word_pronunciations` of `wordsmith.py`: every pronunciation of every
word, failing on the first word absent from the table. -/
def get_word_pronunciations (words : List String) (cmpd : Table) :
    Option (List (List Pron)) :=
  mapOption (lookupTable cmpd) words

/-- `itertools.product(*lists)`: the cross product in itertools order (the
leftmost factor varies slowest); the empty input yields the single empty
combination. -/
def product {α : Type} : List (List α) → List (List α)
  | [] => [[]]
  | l :: ls => l.flatMap (fun x => (product ls).map (fun c => x :: c))

/-- `get_phrase_pronunciations` of `wordsmith.py`: flatten each combination
of the cross product (`[phoneme for word in combo for phoneme in word]`). -/
def get_phrase_pronunciations (wp : List (List Pron)) : List Pron :=
  (product wp).map List.flatten

/-- Partitions of a nonempty sequence headed by `x`: either `x` is a
singleton block in front of a partition of the rest, or `x` is prepended to
the first block of a partition of the rest. -/
def partitionsAux {α : Type} (x : α) : List α → List (List (List α))
  | [] => [[[x]]]
  | y :: ys =>
    ((partitionsAux y ys).map (fun p => [x] :: p)) ++
      ((partitionsAux y ys).map (fun p => (x :: p.headI) :: p.tail))

/-- `more_itertools.partitions`: all order-preserving partitions of the
sequence into contiguous blocks (one boundary decision between each adjacent
pair of elements). The library enumerates them by the powerset of cut
positions; this recursion produces the same partitions (enumeration order,
which the library leaves unspecified, differs). On the empty sequence the
library yields exactly one partition holding a single empty block
(`[sequence[0:0]]`), matched by the base case here. -/
def partitions {α : Type} : List α → List (List (List α))
  | [] => [[[]]]
  | x :: xs => partitionsAux x xs

/-- `part_to_phrases` of `wordsmith.py`: look up each block of the partition
in the inverted dict (`none` models the `KeyError` escaping when a block
matches no word), then join each choice of one word per block with single
spaces (`' '.join`). -/
def part_to_phrases (d : InvIdx) (partition : List Pron) : Option (List String) :=
  (mapOption (lookupInv d) partition).map
    (fun buckets => (product buckets).map (fun ws => String.intercalate " " ws))

/-- What one partition adds to the result in `get_phrases`: the phrases of
`part_to_phrases`, or nothing when it raised (`except KeyError: pass`). -/
def contribution (d : InvIdx) (part : List Pron) : List String :=
  match part_to_phrases d part with
  | some phs => phs
  | none => []

/-- `get_phrases` of `wordsmith.py`: over every phrase pronunciation and every
partition of it, extend the result with that partition's phrases, skipping
partitions that raise `KeyError`. -/
def get_phrases (d : InvIdx) (pps : List Pron) : List String :=
  pps.flatMap (fun pron => (partitions pron).flatMap (fun part => contribution d part))

/-- `wordsmith` of `wordsmith.py` on the already-tokenised, lower-cased word
list (tokenisation is an external collaborator per the spec): `none` models
the `KeyError` escaping from `get_word_pronunciations`. -/
def wordsmith (cmpd : Table) (words : List String) : Option (List String) :=
  (get_word_pronunciations words cmpd).map (fun wps =>
    get_phrases (invert_CMPD cmpd) (get_phrase_pronunciations wps))

example : partitions ["a", "b"] = [[["a"], ["b"]], [["a", "b"]]] := by decide

example :
    product [[1, 2], [3]] = [[1, 3], [2, 3]] := by decide

example :
    get_phrase_pronunciations [[["P", "AH0"], ["P", "AE0"]], [["R"]]] =
      [["P", "AH0", "R"], ["P", "AE0", "R"]] := by decide

example :
    invert_CMPD [("hear", [["HH", "IY1", "R"]]), ("here", [["HH", "IY1", "R"]])] =
      [(["HH", "IY1", "R"], ["hear", "here"])] := by decide

example :
    wordsmith [("hear", [["HH", "IY1", "R"]]), ("here", [["HH", "IY1", "R"]])] ["here"] =
      some ["hear", "here"] := by decide

/-! ### Lemmas about `mapOption` -/

theorem mapOption_eq_some_iff {α β : Type} (f : α → Option β) :
    ∀ {l : List α} {bs : List β},
      mapOption f l = some bs ↔ List.Forall₂ (fun a b => f a = some b) l bs := by
  intro l
  induction l with
  | nil =>
    intro bs
    constructor
    · intro h
      cases h
      exact List.Forall₂.nil
    · intro h
      cases h
      rfl
  | cons a as ih =>
    intro bs
    constructor
    · intro h
      cases hfa : f a with
      | none => simp [mapOption, hfa] at h
      | some b =>
        cases hrest : mapOption f as with
        | none => simp [mapOption, hfa, hrest] at h
        | some bs' =>
          simp [mapOption, hfa, hrest] at h
          subst h
          exact List.Forall₂.cons hfa (ih.mp hrest)
    · intro h
      cases h with
      | cons hab hrest =>
        simp [mapOption, hab, ih.mpr hrest]

theorem mapOption_eq_none_iff {α β : Type} (f : α → Option β) :
    ∀ {l : List α}, mapOption f l = none ↔ ∃ a ∈ l, f a = none := by
  intro l
  induction l with
  | nil => simp [mapOption]
  | cons a as ih =>
    cases hfa : f a with
    | none => simp [mapOption, hfa]
    | some b =>
      cases hrest : mapOption f as with
      | none =>
        constructor
        · intro _
          obtain ⟨x, hx, hfx⟩ := ih.mp hrest
          exact ⟨x, List.mem_cons_of_mem a hx, hfx⟩
        · intro _
          simp [mapOption, hfa, hrest]
      | some bs' =>
        simp [mapOption, hfa, hrest]
        intro x hx hfx
        have := ih.mpr ⟨x, hx, hfx⟩
        simp [hrest] at this

theorem mapOption_some_of_forall {α β : Type} (f : α → Option β) {l : List α}
    (h : ∀ a ∈ l, (f a).isSome) :
    ∃ bs, mapOption f l = some bs ∧ List.Forall₂ (fun a b => f a = some b) l bs := by
  cases hm : mapOption f l with
  | none =>
    obtain ⟨a, ha, hfa⟩ := (mapOption_eq_none_iff f).mp hm
    have := h a ha
    simp [hfa] at this
  | some bs =>
    exact ⟨bs, rfl, (mapOption_eq_some_iff f).mp hm⟩

/-! ### Lemmas about `product` -/

theorem mem_product {α : Type} :
    ∀ {ls : List (List α)} {c : List α},
      c ∈ product ls ↔ List.Forall₂ (fun x l => x ∈ l) c ls := by
  intro ls
  induction ls with
  | nil =>
    intro c
    simp [product, List.forall₂_nil_right_iff]
  | cons l ls ih =>
    intro c
    simp only [product, List.mem_flatMap, List.mem_map, List.forall₂_cons_right_iff]
    constructor
    · rintro ⟨x, hx, c', hc', rfl⟩
      exact ⟨x, c', hx, ih.mp hc', rfl⟩
    · rintro ⟨x, c', hx, hc', rfl⟩
      exact ⟨x, hx, c', ih.mpr hc', rfl⟩

theorem length_product {α : Type} :
    ∀ ls : List (List α), (product ls).length = (ls.map List.length).prod := by
  intro ls
  induction ls with
  | nil => simp [product]
  | cons l ls ih =>
    simp only [product, List.length_flatMap, List.map_map, Function.comp_def,
      List.length_map, ih, List.map_const', List.sum_replicate, smul_eq_mul,
      List.map_cons, List.prod_cons]

/-! ### Composition helpers for `Forall₂` -/

theorem forall2_trans {α β γ : Type} {r : α → β → Prop} {s : β → γ → Prop}
    {t : α → γ → Prop} (hcomp : ∀ a b c, r a b → s b c → t a c) :
    ∀ {l₁ : List α} {l₂ : List β} {l₃ : List γ},
      List.Forall₂ r l₁ l₂ → List.Forall₂ s l₂ l₃ → List.Forall₂ t l₁ l₃ := by
  intro l₁ l₂ l₃ h₁
  induction h₁ generalizing l₃ with
  | nil =>
    intro h₂
    cases h₂
    exact List.Forall₂.nil
  | cons hab hrest ih =>
    intro h₂
    cases h₂ with
    | cons hbc hrest₂ =>
      exact List.Forall₂.cons (hcomp _ _ _ hab hbc) (ih hrest₂)

theorem forall2_map_self {α β : Type} (f : α → β) :
    ∀ l : List α, List.Forall₂ (fun a b => b = f a) l (l.map f) := by
  intro l
  induction l with
  | nil => exact List.Forall₂.nil
  | cons a as ih => exact List.Forall₂.cons rfl ih

/-! ### Lemmas about the association-list dictionary -/

theorem lookupInv_none_iff (d : InvIdx) (P : Pron) :
    lookupInv d P = none ↔ hasKey d P = false := by
  simp [lookupInv, hasKey, List.find?_eq_none, List.any_eq_false]

theorem lookupInv_of_hasKey (d : InvIdx) (P : Pron) (h : hasKey d P = true) :
    lookupInv d P = some (assocGet d P) := by
  have hsome : (d.find? (fun kv => kv.1 == P)).isSome := by
    rw [List.find?_isSome]
    simpa [hasKey, List.any_eq_true] using h
  obtain ⟨kv, hkv⟩ := Option.isSome_iff_exists.mp hsome
  simp [lookupInv, assocGet, hkv]

theorem find?_map_upd_self (k : Pron) (v : List String) :
    ∀ d : InvIdx, hasKey d k = true →
      (d.map (fun kv => if kv.1 == k then (k, v) else kv)).find?
          (fun kv => kv.1 == k) = some (k, v) := by
  intro d
  induction d with
  | nil => simp [hasKey]
  | cons kv rest ih =>
    intro h
    by_cases h1 : kv.1 = k
    · simp [h1]
    · have hrest : hasKey rest k = true := by
        simpa [hasKey, h1] using h
      simpa [h1] using ih hrest

theorem find?_map_upd_other (k : Pron) (v : List String) (P : Pron) (hPk : P ≠ k) :
    ∀ d : InvIdx,
      (d.map (fun kv => if kv.1 == k then (k, v) else kv)).find?
          (fun kv => kv.1 == P) = d.find? (fun kv => kv.1 == P) := by
  intro d
  induction d with
  | nil => rfl
  | cons kv rest ih =>
    rw [List.map_cons]
    by_cases h1 : kv.1 = k
    · have heq : (if kv.1 == k then (k, v) else kv) = (k, v) := by simp [h1]
      rw [heq, List.find?_cons_of_neg, List.find?_cons_of_neg]
      · exact ih
      · simp only [beq_iff_eq, h1]
        exact Ne.symm hPk
      · simp only [beq_iff_eq]
        exact Ne.symm hPk
    · have heq : (if kv.1 == k then (k, v) else kv) = kv := by simp [h1]
      rw [heq]
      by_cases h2 : kv.1 = P
      · rw [List.find?_cons_of_pos, List.find?_cons_of_pos] <;> simp [h2]
      · rw [List.find?_cons_of_neg, List.find?_cons_of_neg]
        · exact ih
        · simp [h2]
        · simp [h2]

theorem assocGet_assocUpd (d : InvIdx) (k : Pron) (v : List String) (P : Pron) :
    assocGet (assocUpd d k v) P = if P = k then v else assocGet d P := by
  unfold assocUpd
  by_cases hk : hasKey d k
  · rw [if_pos hk]
    by_cases hPk : P = k
    · subst hPk
      rw [if_pos rfl]
      unfold assocGet
      rw [find?_map_upd_self P v d hk]
    · rw [if_neg hPk]
      unfold assocGet
      rw [find?_map_upd_other k v P hPk d]
  · rw [if_neg hk]
    by_cases hPk : P = k
    · subst hPk
      rw [if_pos rfl]
      have hnone : d.find? (fun kv => kv.1 == P) = none := by
        rw [List.find?_eq_none]
        intro kv hkv hc
        apply hk
        simp only [hasKey, List.any_eq_true]
        exact ⟨kv, hkv, hc⟩
      unfold assocGet
      rw [List.find?_append, hnone, Option.none_or, List.find?_cons_of_pos]
      simp
    · rw [if_neg hPk]
      have htail : List.find? (fun kv => kv.1 == P) [(k, v)] = none := by
        rw [List.find?_eq_none]
        intro kv hkv
        simp only [List.mem_singleton] at hkv
        subst hkv
        simp only [beq_iff_eq]
        exact Ne.symm hPk
      unfold assocGet
      rw [List.find?_append, htail, Option.or_none]


theorem invert_CMPD_eq_foldPairs (cmpd : Table) :
    invert_CMPD cmpd = foldPairs (tablePairs cmpd) [] := by
  suffices h : ∀ d : InvIdx,
      cmpd.foldl (fun inv e => e.2.foldl (fun inv p => insertPair inv e.1 p) inv) d =
        foldPairs (tablePairs cmpd) d by
    exact h []
  induction cmpd with
  | nil =>
    intro d
    rfl
  | cons e rest ih =>
    intro d
    rw [List.foldl_cons, ih]
    unfold foldPairs tablePairs
    rw [List.flatMap_cons, List.foldl_append, List.foldl_map]

theorem assocGet_foldPairs (P : Pron) :
    ∀ (ps : List (String × Pron)) (d : InvIdx),
      assocGet (foldPairs ps d) P =
        assocGet d P ++ (ps.filter (fun wp => wp.2 == P)).map Prod.fst := by
  intro ps
  induction ps with
  | nil =>
    intro d
    simp [foldPairs]
  | cons wp rest ih =>
    intro d
    rw [foldPairs, List.foldl_cons]
    have hstep : assocGet (insertPair d wp.1 wp.2) P =
        if P = wp.2 then assocGet d wp.2 ++ [wp.1] else assocGet d P := by
      unfold insertPair
      rw [assocGet_assocUpd]
    show assocGet (foldPairs rest (insertPair d wp.1 wp.2)) P = _
    rw [ih, hstep]
    by_cases hP : P = wp.2
    · subst hP
      rw [if_pos rfl, List.filter_cons_of_pos (by simp), List.map_cons,
        List.append_assoc]
      rfl
    · rw [if_neg hP, List.filter_cons_of_neg (by simp [Ne.symm hP])]

theorem values_nonempty_foldPairs :
    ∀ (ps : List (String × Pron)) (d : InvIdx),
      (∀ kv ∈ d, kv.2 ≠ []) → ∀ kv ∈ foldPairs ps d, kv.2 ≠ [] := by
  intro ps
  induction ps with
  | nil =>
    intro d hd
    exact hd
  | cons wp rest ih =>
    intro d hd
    rw [foldPairs, List.foldl_cons]
    apply ih
    intro kv hkv
    unfold insertPair assocUpd at hkv
    by_cases hk : hasKey d wp.2
    · rw [if_pos hk] at hkv
      obtain ⟨kv₀, hkv₀, heq⟩ := List.mem_map.mp hkv
      by_cases h1 : kv₀.1 = wp.2
      · rw [if_pos (by simp [h1])] at heq
        subst heq
        simp
      · rw [if_neg (by simp [h1])] at heq
        subst heq
        exact hd kv₀ hkv₀
    · rw [if_neg hk] at hkv
      rcases List.mem_append.mp hkv with h | h
      · exact hd kv h
      · simp only [List.mem_singleton] at h
        subst h
        simp

theorem assocGet_invert_CMPD (cmpd : Table) (P : Pron) :
    assocGet (invert_CMPD cmpd) P = bucketSpec cmpd P := by
  rw [invert_CMPD_eq_foldPairs, bucketSpec, assocGet_foldPairs]
  rfl

theorem invert_CMPD_values_nonempty (cmpd : Table) :
    ∀ kv ∈ invert_CMPD cmpd, kv.2 ≠ [] := by
  rw [invert_CMPD_eq_foldPairs]
  exact values_nonempty_foldPairs (tablePairs cmpd) [] (by simp)

theorem assocGet_of_lookupInv_some (d : InvIdx) (P : Pron) (ws : List String)
    (h : lookupInv d P = some ws) : assocGet d P = ws := by
  unfold lookupInv at h
  cases hf : d.find? (fun kv => kv.1 == P) with
  | none => rw [hf] at h; cases h
  | some kv =>
    rw [hf] at h
    simp only [Option.map] at h
    injection h with h
    simp [assocGet, hf, h]

theorem lookupInv_some_of_assocGet_ne (d : InvIdx) (P : Pron)
    (h : assocGet d P ≠ []) : lookupInv d P = some (assocGet d P) := by
  unfold assocGet at h ⊢
  cases hf : d.find? (fun kv => kv.1 == P) with
  | none => rw [hf] at h; exact absurd rfl h
  | some kv => simp [lookupInv, hf, assocGet, hf]

theorem exists_entry_of_lookupInv_some (d : InvIdx) (P : Pron) (ws : List String)
    (h : lookupInv d P = some ws) : ∃ kv ∈ d, kv.2 = ws := by
  unfold lookupInv at h
  cases hf : d.find? (fun kv => kv.1 == P) with
  | none => rw [hf] at h; cases h
  | some kv =>
    rw [hf] at h
    simp only [Option.map] at h
    injection h with h
    exact ⟨kv, List.mem_of_find?_eq_some hf, h⟩

theorem mem_bucketSpec (cmpd : Table) (W : String) (P : Pron) :
    W ∈ bucketSpec cmpd P ↔ ∃ e ∈ cmpd, e.1 = W ∧ P ∈ e.2 := by
  unfold bucketSpec tablePairs
  simp only [List.mem_map, List.mem_filter, List.mem_flatMap, beq_iff_eq]
  constructor
  · rintro ⟨wp, ⟨⟨e, he, p, hp, rfl⟩, hP⟩, hW⟩
    simp only at hP hW
    refine ⟨e, he, hW, ?_⟩
    rw [← hP]
    exact hp
  · rintro ⟨e, he, hW, hP⟩
    exact ⟨(e.1, P), ⟨⟨e, he, P, hP, rfl⟩, rfl⟩, hW⟩

theorem bucketSpec_eq_nil_iff (cmpd : Table) (P : Pron) :
    bucketSpec cmpd P = [] ↔ ∀ e ∈ cmpd, P ∉ e.2 := by
  unfold bucketSpec tablePairs
  simp only [List.map_eq_nil_iff, List.filter_eq_nil_iff, List.mem_flatMap,
    List.mem_map, beq_iff_eq]
  constructor
  · intro h e he hP
    exact h (e.1, P) ⟨e, he, ⟨P, hP, rfl⟩⟩ rfl
  · rintro h wp ⟨e, he, p, hp, rfl⟩ hP
    simp only at hP
    rw [hP] at hp
    exact h e he hp

theorem lookupInv_invert_none_iff (cmpd : Table) (P : Pron) :
    lookupInv (invert_CMPD cmpd) P = none ↔ ∀ e ∈ cmpd, P ∉ e.2 := by
  constructor
  · intro h
    rw [← bucketSpec_eq_nil_iff, ← assocGet_invert_CMPD]
    by_contra hne
    rw [lookupInv_some_of_assocGet_ne _ _ hne] at h
    cases h
  · intro h
    cases hl : lookupInv (invert_CMPD cmpd) P with
    | none => rfl
    | some ws =>
      obtain ⟨kv, hkv, hval⟩ := exists_entry_of_lookupInv_some _ _ _ hl
      have hws : ws = bucketSpec cmpd P := by
        rw [← assocGet_invert_CMPD, assocGet_of_lookupInv_some _ _ _ hl]
      have : ws = [] := by
        rw [hws, bucketSpec_eq_nil_iff]
        exact h
      rw [this] at hval
      exact absurd hval (invert_CMPD_values_nonempty cmpd kv hkv)

theorem lookupInv_invert_some_of_mem (cmpd : Table) (W : String) (P : Pron)
    (h : W ∈ assocGet (invert_CMPD cmpd) P) :
    lookupInv (invert_CMPD cmpd) P = some (assocGet (invert_CMPD cmpd) P) := by
  apply lookupInv_some_of_assocGet_ne
  intro hc
  rw [hc] at h
  cases h

/-! ### Lemmas about `partitions` -/

theorem partitionsAux_ne_nil {α : Type} (x : α) :
    ∀ l : List α, ∀ p ∈ partitionsAux x l, p ≠ [] := by
  intro l
  induction l generalizing x with
  | nil =>
    intro p hp
    simp only [partitionsAux, List.mem_singleton] at hp
    subst hp
    simp
  | cons y ys ih =>
    intro p hp
    simp only [partitionsAux, List.mem_append, List.mem_map] at hp
    rcases hp with ⟨q, _, rfl⟩ | ⟨q, _, rfl⟩ <;> simp

theorem partitionsAux_blocks_ne_nil {α : Type} (x : α) :
    ∀ l : List α, ∀ p ∈ partitionsAux x l, ∀ b ∈ p, b ≠ [] := by
  intro l
  induction l generalizing x with
  | nil =>
    intro p hp b hb
    simp only [partitionsAux, List.mem_singleton] at hp
    subst hp
    simp only [List.mem_singleton] at hb
    subst hb
    simp
  | cons y ys ih =>
    intro p hp b hb
    simp only [partitionsAux, List.mem_append, List.mem_map] at hp
    rcases hp with ⟨q, hq, rfl⟩ | ⟨q, hq, rfl⟩
    · rcases List.mem_cons.mp hb with rfl | hb'
      · simp
      · exact ih y q hq b hb'
    · obtain ⟨qh, qt, rfl⟩ := List.exists_cons_of_ne_nil (partitionsAux_ne_nil y ys q hq)
      simp only [List.headI, List.tail] at hb
      rcases List.mem_cons.mp hb with rfl | hb'
      · simp
      · exact ih y _ hq b (List.mem_cons_of_mem qh hb')

theorem partitionsAux_flatten {α : Type} (x : α) :
    ∀ l : List α, ∀ p ∈ partitionsAux x l, p.flatten = x :: l := by
  intro l
  induction l generalizing x with
  | nil =>
    intro p hp
    simp only [partitionsAux, List.mem_singleton] at hp
    subst hp
    simp
  | cons y ys ih =>
    intro p hp
    simp only [partitionsAux, List.mem_append, List.mem_map] at hp
    rcases hp with ⟨q, hq, rfl⟩ | ⟨q, hq, rfl⟩
    · simp [ih y q hq]
    · obtain ⟨qh, qt, rfl⟩ := List.exists_cons_of_ne_nil (partitionsAux_ne_nil y ys q hq)
      have := ih y _ hq
      simp only [List.flatten_cons] at this
      simp only [List.headI, List.tail, List.flatten_cons, List.cons_append, this]

theorem partitionsAux_length {α : Type} (x : α) :
    ∀ l : List α, (partitionsAux x l).length = 2 ^ l.length := by
  intro l
  induction l generalizing x with
  | nil => rfl
  | cons y ys ih =>
    simp only [partitionsAux, List.length_append, List.length_map, ih,
      List.length_cons]
    ring

theorem partitionsAux_nodup {α : Type} (x : α) :
    ∀ l : List α, (partitionsAux x l).Nodup := by
  intro l
  induction l generalizing x with
  | nil => simp [partitionsAux]
  | cons y ys ih =>
    simp only [partitionsAux]
    apply List.Nodup.append
    · exact (ih y).map (fun p q h => by injection h)
    · apply List.Nodup.map_on
      · intro p hp q hq h
        obtain ⟨ph, pt, rfl⟩ := List.exists_cons_of_ne_nil (partitionsAux_ne_nil y ys p hp)
        obtain ⟨qh, qt, rfl⟩ := List.exists_cons_of_ne_nil (partitionsAux_ne_nil y ys q hq)
        simp only [List.headI, List.tail, List.cons.injEq] at h
        rw [h.1.2, h.2]
      · exact ih y
    · intro p hp hq
      obtain ⟨p₁, hp₁, rfl⟩ := List.mem_map.mp hp
      obtain ⟨q₁, hq₁, heq⟩ := List.mem_map.mp hq
      obtain ⟨qh, qt, rfl⟩ := List.exists_cons_of_ne_nil (partitionsAux_ne_nil y ys q₁ hq₁)
      simp only [List.headI, List.tail, List.cons.injEq] at heq
      exact partitionsAux_blocks_ne_nil y ys _ hq₁ qh (List.mem_cons_self qh qt) heq.1.2

theorem partitionsAux_complete {α : Type} :
    ∀ (l : List α) (x : α) (p : List (List α)),
      (∀ b ∈ p, b ≠ []) → p.flatten = x :: l → p ∈ partitionsAux x l := by
  intro l
  induction l with
  | nil =>
    intro x p hblocks hflat
    match p with
    | [] => simp at hflat
    | b :: bs =>
      rw [List.flatten_cons] at hflat
      obtain ⟨c, ct, rfl⟩ := List.exists_cons_of_ne_nil (hblocks b (List.mem_cons_self b bs))
      rw [List.cons_append, List.cons.injEq] at hflat
      obtain ⟨rfl, htail⟩ := hflat
      have hct : ct = [] := (List.append_eq_nil.mp htail).1
      have hbs : bs.flatten = [] := (List.append_eq_nil.mp htail).2
      have hbsnil : bs = [] := by
        cases bs with
        | nil => rfl
        | cons b' bs' =>
          rw [List.flatten_cons] at hbs
          have := (List.append_eq_nil.mp hbs).1
          exact absurd this (hblocks b' (List.mem_cons_of_mem _ (List.mem_cons_self b' bs')))
      subst hct hbsnil
      simp [partitionsAux]
  | cons y ys ih =>
    intro x p hblocks hflat
    match p with
    | [] => simp at hflat
    | b :: bs =>
      rw [List.flatten_cons] at hflat
      obtain ⟨c, ct, rfl⟩ := List.exists_cons_of_ne_nil (hblocks b (List.mem_cons_self b bs))
      rw [List.cons_append, List.cons.injEq] at hflat
      obtain ⟨rfl, htail⟩ := hflat
      simp only [partitionsAux, List.mem_append, List.mem_map]
      cases ct with
      | nil =>
        left
        refine ⟨bs, ?_, rfl⟩
        apply ih y bs
        · intro b hb
          exact hblocks b (List.mem_cons_of_mem _ hb)
        · simpa using htail
      | cons z zt =>
        right
        refine ⟨(z :: zt) :: bs, ?_, ?_⟩
        · apply ih y ((z :: zt) :: bs)
          · intro b hb
            rcases List.mem_cons.mp hb with rfl | hb'
            · simp
            · exact hblocks b (List.mem_cons_of_mem _ hb')
          · simpa using htail
        · simp [List.headI, List.tail]

theorem partitions_blocks_ne_nil {α : Type} (l : List α) (hl : l ≠ [])
    (p : List (List α)) (hp : p ∈ partitions l) : ∀ b ∈ p, b ≠ [] := by
  obtain ⟨x, xs, rfl⟩ := List.exists_cons_of_ne_nil hl
  exact partitionsAux_blocks_ne_nil x xs p hp

theorem partitions_flatten {α : Type} (l : List α) (hl : l ≠ [])
    (p : List (List α)) (hp : p ∈ partitions l) : p.flatten = l := by
  obtain ⟨x, xs, rfl⟩ := List.exists_cons_of_ne_nil hl
  exact partitionsAux_flatten x xs p hp

theorem partitions_length {α : Type} (l : List α) (hl : l ≠ []) :
    (partitions l).length = 2 ^ (l.length - 1) := by
  obtain ⟨x, xs, rfl⟩ := List.exists_cons_of_ne_nil hl
  show (partitionsAux x xs).length = 2 ^ ((x :: xs).length - 1)
  rw [partitionsAux_length, List.length_cons, Nat.add_sub_cancel]

theorem partitions_nodup {α : Type} (l : List α) :
    (partitions l).Nodup := by
  cases l with
  | nil => simp [partitions]
  | cons x xs => exact partitionsAux_nodup x xs

theorem partitions_complete {α : Type} (l : List α) (hl : l ≠ [])
    (p : List (List α)) (hblocks : ∀ b ∈ p, b ≠ []) (hflat : p.flatten = l) :
    p ∈ partitions l := by
  obtain ⟨x, xs, rfl⟩ := List.exists_cons_of_ne_nil hl
  exact partitionsAux_complete xs x p hblocks hflat

/-! ### Small glue lemmas -/

theorem headI_mem_of_ne_nil {α : Type} [Inhabited α] (l : List α) (h : l ≠ []) :
    l.headI ∈ l := by
  cases l with
  | nil => exact absurd rfl h
  | cons a as => exact List.mem_cons_self a as

theorem forall2_mem_right {α β : Type} {r : α → β → Prop} :
    ∀ {l₁ : List α} {l₂ : List β}, List.Forall₂ r l₁ l₂ → ∀ {b : β}, b ∈ l₂ →
      ∃ a ∈ l₁, r a b := by
  intro l₁ l₂ h
  induction h with
  | nil =>
    intro b hb
    cases hb
  | cons hab hrest ih =>
    intro b hb
    rcases List.mem_cons.mp hb with rfl | hb'
    · exact ⟨_, List.mem_cons_self _ _, hab⟩
    · obtain ⟨a, ha, har⟩ := ih hb'
      exact ⟨a, List.mem_cons_of_mem _ ha, har⟩

theorem forall2_map_mem {α β : Type} {R : β → α → Prop} (f : α → β) :
    ∀ {l : List α}, (∀ a ∈ l, R (f a) a) → List.Forall₂ R (l.map f) l := by
  intro l
  induction l with
  | nil =>
    intro _
    exact List.Forall₂.nil
  | cons a as ih =>
    intro h
    exact List.Forall₂.cons (h a (List.mem_cons_self a as))
      (ih (fun a' ha' => h a' (List.mem_cons_of_mem a ha')))

theorem lookupTable_some_spec (cmpd : Table) (w : String) (ps : List Pron)
    (h : lookupTable cmpd w = some ps) : ∃ e ∈ cmpd, e.1 = w ∧ e.2 = ps := by
  unfold lookupTable at h
  cases hf : cmpd.find? (fun e => e.1 == w) with
  | none => rw [hf] at h; cases h
  | some e =>
    rw [hf] at h
    simp only [Option.map] at h
    injection h with h
    have hw : e.1 = w := by
      have := List.find?_some hf
      simpa using this
    exact ⟨e, List.mem_of_find?_eq_some hf, hw, h⟩

theorem lookupTable_isSome_of_mem (cmpd : Table) (w : String)
    (h : ∃ e ∈ cmpd, e.1 = w) : (lookupTable cmpd w).isSome := by
  obtain ⟨e, he, hw⟩ := h
  unfold lookupTable
  cases hf : cmpd.find? (fun e => e.1 == w) with
  | none =>
    rw [List.find?_eq_none] at hf
    exact absurd (by simp [hw]) (hf e he)
  | some e' => rfl

/-! ### Claim theorems -/

/-- C2: for every nonempty phoneme sequence of length n, the Partition Engine
enumerates exactly 2^(n-1) distinct partitions — no composition skipped (every
list of nonempty blocks concatenating to the sequence occurs) or duplicated
(`Nodup`) — every block of every partition is nonempty, and the blocks of each
partition concatenate back to the original sequence. -/
theorem partition_engine_spec {α : Type} (l : List α) (h : l ≠ []) :
    (partitions l).length = 2 ^ (l.length - 1) ∧
    (partitions l).Nodup ∧
    (∀ p ∈ partitions l, p.flatten = l ∧ ∀ b ∈ p, b ≠ []) ∧
    (∀ p : List (List α), (∀ b ∈ p, b ≠ []) → p.flatten = l → p ∈ partitions l) :=
  ⟨partitions_length l h, partitions_nodup l,
    fun p hp => ⟨partitions_flatten l h p hp, partitions_blocks_ne_nil l h p hp⟩,
    fun p hb hf => partitions_complete l h p hb hf⟩

/-- Witness for C2 at the length-3 sequence `[0, 1, 2]`. -/
theorem partition_engine_spec_witness :
    ([0, 1, 2] : List Nat) ≠ [] ∧
    ((partitions ([0, 1, 2] : List Nat)).length = 2 ^ (([0, 1, 2] : List Nat).length - 1) ∧
      (partitions ([0, 1, 2] : List Nat)).Nodup ∧
      (∀ p ∈ partitions ([0, 1, 2] : List Nat), p.flatten = [0, 1, 2] ∧ ∀ b ∈ p, b ≠ []) ∧
      (∀ p : List (List Nat), (∀ b ∈ p, b ≠ []) → p.flatten = [0, 1, 2] →
        p ∈ partitions ([0, 1, 2] : List Nat))) :=
  ⟨by decide, partition_engine_spec [0, 1, 2] (by decide)⟩

/-- C3: the Phrase Expander returns exactly one flattened whole-phrase
pronunciation per element of the cross product of the per-word pronunciation
lists (membership in the cross product being exactly one choice per word, in
word order), its output length is the product of the per-word counts, and a
single-word phrase returns that word's pronunciation list unchanged. -/
theorem phrase_expander_spec (wp : List (List Pron)) :
    get_phrase_pronunciations wp = (product wp).map List.flatten ∧
    (get_phrase_pronunciations wp).length = (wp.map List.length).prod ∧
    (∀ c : List Pron, c ∈ product wp ↔ List.Forall₂ (fun pron l => pron ∈ l) c wp) ∧
    (∀ prons : List Pron, get_phrase_pronunciations [prons] = prons) := by
  refine ⟨rfl, ?_, fun c => mem_product, ?_⟩
  · unfold get_phrase_pronunciations
    rw [List.length_map, length_product]
  · intro prons
    unfold get_phrase_pronunciations product
    simp [List.map_flatMap, product]

/-- C5: after the Inverted Index is built by `invert_CMPD`, word `W` is in
the bucket keyed by pronunciation `P` iff `P` is one of `W`'s pronunciations
in the table; moreover the bucket is exactly the words of the table's
(word, pronunciation) pairs with pronunciation `P`, each pair visited exactly
once in table order with the word appended to that pronunciation's bucket. -/
theorem inverted_index_invariant (cmpd : Table) (W : String) (P : Pron) :
    (W ∈ assocGet (invert_CMPD cmpd) P ↔ ∃ e ∈ cmpd, e.1 = W ∧ P ∈ e.2) ∧
    assocGet (invert_CMPD cmpd) P = bucketSpec cmpd P :=
  ⟨by rw [assocGet_invert_CMPD]; exact mem_bucketSpec cmpd W P,
    assocGet_invert_CMPD cmpd P⟩

/-- C6: a word list containing a word with no table entry makes the whole
search fail (`KeyError` / `UnknownWordError`, modelled as `none`): no partial
result is produced. -/
theorem unknown_word_aborts (cmpd : Table) (words : List String)
    (h : ∃ w ∈ words, lookupTable cmpd w = none) :
    wordsmith cmpd words = none := by
  unfold wordsmith get_word_pronunciations
  rw [(mapOption_eq_none_iff (lookupTable cmpd)).mpr h]
  rfl

/-- Witness for C6: searching `["a", "zzz"]` with `"zzz"` absent fails. -/
theorem unknown_word_aborts_witness :
    (∃ w ∈ ["a", "zzz"], lookupTable [("a", [["AH0"]])] w = none) ∧
    wordsmith [("a", [["AH0"]])] ["a", "zzz"] = none :=
  ⟨⟨"zzz", by decide, by decide⟩,
    unknown_word_aborts [("a", [["AH0"]])] ["a", "zzz"] ⟨"zzz", by decide, by decide⟩⟩

/-- C7: a partition with a block matching no word contributes nothing (its
contribution is the empty list, not an error), while every phrase produced by
any successfully reconstructed partition of any pronunciation variant is
still in the search result. -/
theorem block_miss_skips_partition (d : InvIdx) (p0 : List Pron)
    (hmiss : ∃ b ∈ p0, lookupInv d b = none) :
    contribution d p0 = [] ∧
    ∀ (pps : List Pron) (pron : Pron) (part : List Pron) (phs : List String)
      (ph : String), pron ∈ pps → part ∈ partitions pron →
      part_to_phrases d part = some phs → ph ∈ phs → ph ∈ get_phrases d pps := by
  constructor
  · unfold contribution part_to_phrases
    rw [(mapOption_eq_none_iff (lookupInv d)).mpr hmiss]
    rfl
  · intro pps pron part phs ph hpron hpart hsome hph
    unfold get_phrases
    rw [List.mem_flatMap]
    refine ⟨pron, hpron, List.mem_flatMap.mpr ⟨part, hpart, ?_⟩⟩
    unfold contribution
    rw [hsome]
    exact hph

/-- Witness for C7: the partition `[["Z"]]` has no index match, contributes
nothing, and the aggregation property holds for the one-entry table. -/
theorem block_miss_skips_partition_witness :
    (∃ b ∈ [(["Z"] : Pron)], lookupInv (invert_CMPD [("a", [["AH0"]])]) b = none) ∧
    (contribution (invert_CMPD [("a", [["AH0"]])]) [["Z"]] = [] ∧
      ∀ (pps : List Pron) (pron : Pron) (part : List Pron) (phs : List String)
        (ph : String), pron ∈ pps → part ∈ partitions pron →
        part_to_phrases (invert_CMPD [("a", [["AH0"]])]) part = some phs →
        ph ∈ phs → ph ∈ get_phrases (invert_CMPD [("a", [["AH0"]])]) pps) :=
  ⟨⟨["Z"], by decide, by decide⟩,
    block_miss_skips_partition (invert_CMPD [("a", [["AH0"]])]) [["Z"]]
      ⟨["Z"], by decide, by decide⟩⟩

/-- C9: the search is deterministic — for a word list all of whose words are
in the table it returns one defined result list, and two runs against the
same unchanged table produce the same list (the embedding is pure: the only
state, `CMPD`/`CMPD_INVERTED`, is built once and read-only). -/
theorem search_idempotent (cmpd : Table) (words : List String)
    (hin : ∀ w ∈ words, (lookupTable cmpd w).isSome) :
    ∃ res : List String, wordsmith cmpd words = some res ∧
      ∀ r₁ r₂ : List String,
        wordsmith cmpd words = some r₁ → wordsmith cmpd words = some r₂ → r₁ = r₂ := by
  obtain ⟨wps, hwps, -⟩ := mapOption_some_of_forall (lookupTable cmpd) hin
  refine ⟨get_phrases (invert_CMPD cmpd) (get_phrase_pronunciations wps), ?_, ?_⟩
  · unfold wordsmith get_word_pronunciations
    rw [hwps]
    rfl
  · intro r₁ r₂ h₁ h₂
    exact Option.some.inj (h₁.symm.trans h₂)

/-- Witness for C9 on a one-word query over a one-entry table. -/
theorem search_idempotent_witness :
    (∀ w ∈ ["a"], (lookupTable [("a", [["AH0"]])] w).isSome) ∧
    (∃ res : List String, wordsmith [("a", [["AH0"]])] ["a"] = some res ∧
      ∀ r₁ r₂ : List String,
        wordsmith [("a", [["AH0"]])] ["a"] = some r₁ →
        wordsmith [("a", [["AH0"]])] ["a"] = some r₂ → r₁ = r₂) :=
  ⟨by decide, search_idempotent [("a", [["AH0"]])] ["a"] (by decide)⟩

/-- C4: when every block of a partition has an index entry, the Phrase
Reconstructor succeeds and emits exactly one phrase per element of the cross
product of the per-block word lists — each phrase the chosen words joined by
single spaces in block order — so the phrase count is the product of the
bucket sizes. -/
theorem phrase_reconstructor_spec (d : InvIdx) (partition : List Pron)
    (h : ∀ b ∈ partition, (lookupInv d b).isSome) :
    ∃ buckets : List (List String),
      List.Forall₂ (fun b bucket => lookupInv d b = some bucket) partition buckets ∧
      part_to_phrases d partition =
        some ((product buckets).map (fun ws => String.intercalate " " ws)) ∧
      ((product buckets).map (fun ws => String.intercalate " " ws)).length =
        (buckets.map List.length).prod ∧
      (∀ ph : String,
        ph ∈ (product buckets).map (fun ws => String.intercalate " " ws) ↔
          ∃ choice : List String,
            List.Forall₂ (fun w bucket => w ∈ bucket) choice buckets ∧
            ph = String.intercalate " " choice) := by
  obtain ⟨buckets, hbk, hforall⟩ := mapOption_some_of_forall (lookupInv d) h
  refine ⟨buckets, hforall, ?_, ?_, ?_⟩
  · unfold part_to_phrases
    rw [hbk]
    rfl
  · rw [List.length_map, length_product]
  · intro ph
    rw [List.mem_map]
    constructor
    · rintro ⟨ws, hws, rfl⟩
      exact ⟨ws, mem_product.mp hws, rfl⟩
    · rintro ⟨choice, hchoice, rfl⟩
      exact ⟨choice, mem_product.mpr hchoice, rfl⟩

/-- Witness for C4 on the whole-word partition of "here" over a two-entry
table in which "hear" and "here" share the pronunciation. -/
theorem phrase_reconstructor_spec_witness :
    (∀ b ∈ [(["HH", "IY1", "R"] : Pron)],
      (lookupInv (invert_CMPD [("hear", [["HH", "IY1", "R"]]),
        ("here", [["HH", "IY1", "R"]])]) b).isSome) ∧
    (∃ buckets : List (List String),
      List.Forall₂ (fun b bucket =>
          lookupInv (invert_CMPD [("hear", [["HH", "IY1", "R"]]),
            ("here", [["HH", "IY1", "R"]])]) b = some bucket)
        [(["HH", "IY1", "R"] : Pron)] buckets ∧
      part_to_phrases (invert_CMPD [("hear", [["HH", "IY1", "R"]]),
          ("here", [["HH", "IY1", "R"]])]) [["HH", "IY1", "R"]] =
        some ((product buckets).map (fun ws => String.intercalate " " ws)) ∧
      ((product buckets).map (fun ws => String.intercalate " " ws)).length =
        (buckets.map List.length).prod ∧
      (∀ ph : String,
        ph ∈ (product buckets).map (fun ws => String.intercalate " " ws) ↔
          ∃ choice : List String,
            List.Forall₂ (fun w bucket => w ∈ bucket) choice buckets ∧
            ph = String.intercalate " " choice)) :=
  ⟨by decide,
    phrase_reconstructor_spec
      (invert_CMPD [("hear", [["HH", "IY1", "R"]]), ("here", [["HH", "IY1", "R"]])])
      [["HH", "IY1", "R"]] (by decide)⟩

/-- C8 counterexample: the claim says that for a phoneme sequence that is no
word's pronunciation the Inverted Index lookup "returns the empty result
rather than raising an exception"; at the cited code
(`CMPD_INVERTED[tuple(word)]` in `part_to_phrases`, lines 113–117) the access
raises `KeyError` — modelled here by `lookupInv` returning `none` — and does
not return an empty word list `some []`. -/
theorem index_lookup_raises_cex :
    lookupInv (invert_CMPD [("a", [["AH0"]])]) ["Z"] = none ∧
    lookupInv (invert_CMPD [("a", [["AH0"]])]) ["Z"] ≠ some [] := by
  constructor
  · decide
  · decide

/-- C8 as amended: for a sequence `P` that is no table word's pronunciation,
the built index holds no bucket for `P` (reading it with a default yields the
empty list), the block access in `part_to_phrases` fails with `KeyError`
(modelled: `none`) rather than returning words, and `get_phrases` catches the
exception, so any partition containing `P` contributes the empty result and
no error is surfaced by the search. -/
theorem index_miss_silent (cmpd : Table) (P : Pron)
    (h : ∀ e ∈ cmpd, P ∉ e.2) :
    lookupInv (invert_CMPD cmpd) P = none ∧
    assocGet (invert_CMPD cmpd) P = [] ∧
    ∀ part : List Pron, P ∈ part →
      contribution (invert_CMPD cmpd) part = [] := by
  refine ⟨(lookupInv_invert_none_iff cmpd P).mpr h, ?_, ?_⟩
  · rw [assocGet_invert_CMPD, bucketSpec_eq_nil_iff]
    exact h
  · intro part hP
    unfold contribution part_to_phrases
    rw [(mapOption_eq_none_iff (lookupInv (invert_CMPD cmpd))).mpr
      ⟨P, hP, (lookupInv_invert_none_iff cmpd P).mpr h⟩]
    rfl

/-- Witness for the amended C8 at the unmatched sequence `["Z"]`. -/
theorem index_miss_silent_witness :
    (∀ e ∈ [("a", [["AH0"]])], (["Z"] : Pron) ∉ e.2) ∧
    (lookupInv (invert_CMPD [("a", [["AH0"]])]) ["Z"] = none ∧
      assocGet (invert_CMPD [("a", [["AH0"]])]) ["Z"] = [] ∧
      ∀ part : List Pron, (["Z"] : Pron) ∈ part →
        contribution (invert_CMPD [("a", [["AH0"]])]) part = []) :=
  ⟨by decide, index_miss_silent [("a", [["AH0"]])] ["Z"] (by decide)⟩

/-- C10: provided no table word has the empty pronunciation, searching the
empty word list returns the empty phrase list; the Phrase Expander yields
exactly one whole-phrase pronunciation (the empty sequence), the partition
enumerator applied to the empty sequence yields exactly one partition whose
single block is empty — so the nonempty-block property (and with it the
2^(n-1) law's block discipline) does not extend to n = 0 — and that empty
block has no index match. -/
theorem empty_phrase_spec (cmpd : Table) (h : ∀ e ∈ cmpd, ([] : Pron) ∉ e.2) :
    wordsmith cmpd [] = some [] ∧
    get_phrase_pronunciations [] = [[]] ∧
    partitions ([] : List String) = [[[]]] ∧
    part_to_phrases (invert_CMPD cmpd) [[]] = none := by
  have hnone : lookupInv (invert_CMPD cmpd) [] = none :=
    (lookupInv_invert_none_iff cmpd []).mpr h
  have hptp : part_to_phrases (invert_CMPD cmpd) [[]] = none := by
    unfold part_to_phrases
    rw [(mapOption_eq_none_iff (lookupInv (invert_CMPD cmpd))).mpr
      ⟨[], List.mem_singleton_self [], hnone⟩]
    rfl
  refine ⟨?_, rfl, rfl, hptp⟩
  have hcontrib : contribution (invert_CMPD cmpd) [[]] = [] := by
    unfold contribution
    rw [hptp]
  have hget : get_phrases (invert_CMPD cmpd) [[]] = [] := by
    unfold get_phrases
    show (partitions ([] : List String)).flatMap
      (fun part => contribution (invert_CMPD cmpd) part) ++ [] = []
    rw [List.append_nil]
    show contribution (invert_CMPD cmpd) [[]] ++ [] = []
    rw [List.append_nil, hcontrib]
  show some (get_phrases (invert_CMPD cmpd) (get_phrase_pronunciations [])) = some []
  rw [show get_phrase_pronunciations [] = [[]] from rfl, hget]

/-- Witness for C10 over a one-entry table with no empty pronunciation. -/
theorem empty_phrase_spec_witness :
    (∀ e ∈ [("a", [["AH0"]])], ([] : Pron) ∉ e.2) ∧
    (wordsmith [("a", [["AH0"]])] [] = some [] ∧
      get_phrase_pronunciations [] = [[]] ∧
      partitions ([] : List String) = [[[]]] ∧
      part_to_phrases (invert_CMPD [("a", [["AH0"]])]) [[]] = none) :=
  ⟨by decide, empty_phrase_spec [("a", [["AH0"]])] (by decide)⟩

/-- C1: for a nonempty already-tokenised phrase all of whose words have a
table entry — the table being well-formed as the CMU dictionary is (every
word has at least one pronunciation and no pronunciation is empty) — the
search succeeds and its result list contains the original phrase, the words
joined by single spaces: the trivial whole-word partition of the whole-phrase
pronunciation built from each word's own (first) pronunciation reconstructs
it. -/
theorem search_contains_original (cmpd : Table) (words : List String)
    (hne : words ≠ [])
    (hwf : ∀ e ∈ cmpd, e.2 ≠ [] ∧ ∀ p ∈ e.2, p ≠ [])
    (hin : ∀ w ∈ words, ∃ e ∈ cmpd, e.1 = w) :
    ∃ res : List String, wordsmith cmpd words = some res ∧
      String.intercalate " " words ∈ res := by
  have hin' : ∀ w ∈ words, (lookupTable cmpd w).isSome := fun w hw =>
    lookupTable_isSome_of_mem cmpd w (hin w hw)
  obtain ⟨wps, hwps, hfa⟩ := mapOption_some_of_forall (lookupTable cmpd) hin'
  have hwps_spec : ∀ ps ∈ wps, ps ≠ [] ∧ ∀ p ∈ ps, p ≠ [] := by
    intro ps hps
    obtain ⟨w, hw, hlk⟩ := forall2_mem_right hfa hps
    obtain ⟨e, he, hew, hev⟩ := lookupTable_some_spec cmpd w ps hlk
    rw [← hev]
    exact hwf e he
  set heads := wps.map List.headI with hheads
  have hmemwps : List.Forall₂ (fun b ps => b ∈ ps) heads wps :=
    forall2_map_mem List.headI (fun ps hps =>
      headI_mem_of_ne_nil ps (hwps_spec ps hps).1)
  have hblocks : ∀ b ∈ heads, b ≠ [] := by
    intro b hb
    rw [hheads] at hb
    obtain ⟨ps, hps, rfl⟩ := List.mem_map.mp hb
    obtain ⟨hps_ne, hps_all⟩ := hwps_spec ps hps
    exact hps_all _ (headI_mem_of_ne_nil ps hps_ne)
  set P := heads.flatten with hPdef
  have hwps_ne : wps ≠ [] := by
    intro hc
    subst hc
    cases hfa
    exact hne rfl
  have hheads_ne : heads ≠ [] := by
    rw [hheads, Ne, List.map_eq_nil_iff]
    exact hwps_ne
  have hPne : P ≠ [] := by
    obtain ⟨b, bs, hcons⟩ := List.exists_cons_of_ne_nil hheads_ne
    have hb : b ≠ [] := hblocks b (by rw [hcons]; exact List.mem_cons_self b bs)
    rw [hPdef, hcons, List.flatten_cons]
    intro hc
    exact hb (List.append_eq_nil.mp hc).1
  have hPmem : P ∈ get_phrase_pronunciations wps := by
    unfold get_phrase_pronunciations
    exact List.mem_map.mpr ⟨heads, mem_product.mpr hmemwps, hPdef.symm⟩
  have hpart : heads ∈ partitions P :=
    partitions_complete P hPne heads hblocks hPdef.symm
  have hWB : List.Forall₂
      (fun w b => ∃ ps, lookupTable cmpd w = some ps ∧ b = ps.headI)
      words heads := by
    rw [hheads]
    exact forall2_trans (fun w ps b h1 h2 => ⟨ps, h1, h2⟩) hfa
      (forall2_map_self List.headI wps)
  have hmem_bucket : ∀ w b,
      (∃ ps, lookupTable cmpd w = some ps ∧ b = ps.headI) →
      w ∈ assocGet (invert_CMPD cmpd) b := by
    rintro w b ⟨ps, hlk, rfl⟩
    obtain ⟨e, he, hew, hev⟩ := lookupTable_some_spec cmpd w ps hlk
    have hpsne : ps ≠ [] := by
      rw [← hev]
      exact (hwf e he).1
    rw [assocGet_invert_CMPD]
    refine (mem_bucketSpec cmpd w ps.headI).mpr ⟨e, he, hew, ?_⟩
    rw [hev]
    exact headI_mem_of_ne_nil ps hpsne
  have hsome : ∀ b ∈ heads, (lookupInv (invert_CMPD cmpd) b).isSome := by
    intro b hb
    obtain ⟨w, hw, hr⟩ := forall2_mem_right hWB hb
    rw [lookupInv_invert_some_of_mem cmpd w b (hmem_bucket w b hr)]
    rfl
  obtain ⟨buckets, hbk, hforall⟩ :=
    mapOption_some_of_forall (lookupInv (invert_CMPD cmpd)) hsome
  have hchoice : List.Forall₂ (fun w bucket => w ∈ bucket) words buckets := by
    refine forall2_trans ?_ hWB hforall
    rintro w b bucket hr hbkt
    have hmem := hmem_bucket w b hr
    rw [assocGet_of_lookupInv_some _ _ _ hbkt] at hmem
    exact hmem
  have hptp : part_to_phrases (invert_CMPD cmpd) heads =
      some ((product buckets).map (fun ws => String.intercalate " " ws)) := by
    unfold part_to_phrases
    rw [hbk]
    rfl
  have hphrase : String.intercalate " " words ∈
      (product buckets).map (fun ws => String.intercalate " " ws) :=
    List.mem_map.mpr ⟨words, mem_product.mpr hchoice, rfl⟩
  refine ⟨get_phrases (invert_CMPD cmpd) (get_phrase_pronunciations wps), ?_, ?_⟩
  · unfold wordsmith get_word_pronunciations
    rw [hwps]
    rfl
  · unfold get_phrases
    rw [List.mem_flatMap]
    refine ⟨P, hPmem, List.mem_flatMap.mpr ⟨heads, hpart, ?_⟩⟩
    unfold contribution
    rw [hptp]
    exact hphrase

/-- Witness for C1: searching "ice cream" over a two-entry table returns a
list containing "ice cream". -/
theorem search_contains_original_witness :
    (["ice", "cream"] : List String) ≠ [] ∧
    (∀ e ∈ [("ice", [["AY1", "S"]]), ("cream", [["K", "R", "IY1", "M"]])],
      e.2 ≠ [] ∧ ∀ p ∈ e.2, p ≠ []) ∧
    (∀ w ∈ ["ice", "cream"],
      ∃ e ∈ [("ice", [["AY1", "S"]]), ("cream", [["K", "R", "IY1", "M"]])],
        e.1 = w) ∧
    (∃ res : List String,
      wordsmith [("ice", [["AY1", "S"]]), ("cream", [["K", "R", "IY1", "M"]])]
        ["ice", "cream"] = some res ∧
      String.intercalate " " ["ice", "cream"] ∈ res) :=
  ⟨by decide, by decide, by decide,
    search_contains_original
      [("ice", [["AY1", "S"]]), ("cream", [["K", "R", "IY1", "M"]])]
      ["ice", "cream"] (by decide) (by decide) (by decide)⟩
